import Mathlib

/-!
Verification development for the publishing engine of grepory/aptly
(file `debian/publish.go`).

The Go code is shallowly embedded: strings are Lean `String`s, the
path manipulation of Go's `path/filepath` package (`Clean`, `Join`)
is modelled on the underlying character lists, fallible operations
return `Except String`, and the mutable collection state
(`PublishedRepoCollection`) is passed explicitly.
-/

namespace AptlyPublish

/-! ### Go `path/filepath` model

`filepath.Clean` (on slash-separated paths) is modelled segment-wise:
split on `/`, process segments with the usual `.`/`..` elimination
(`..` pops a previous component when possible, is dropped at the root
of a rooted path, and is kept when it cannot backtrack in a relative
path), and re-join.
-/

/-- Split a character list on `/` (like Go `strings.Split(s, "/")`,
so the empty list yields `[[]]`). -/
def splitSlash : List Char → List (List Char)
  | [] => [[]]
  | c :: cs =>
    if c = '/' then [] :: splitSlash cs
    else
      match splitSlash cs with
      | [] => [[c]]
      | y :: ys => (c :: y) :: ys

/-- One step of the `Clean` segment processing: `st` is the stack of
output components. -/
def cleanStep (rooted : Bool) (st : List (List Char)) (seg : List Char) : List (List Char) :=
  if seg = [] ∨ seg = ['.'] then st
  else if seg = ['.', '.'] then
    if st ≠ [] ∧ st.getLast? ≠ some ['.', '.'] then st.dropLast
    else if rooted then st
    else st ++ [seg]
  else st ++ [seg]

/-- Process all segments of a path. -/
def cleanSegs (rooted : Bool) (segs : List (List Char)) : List (List Char) :=
  segs.foldl (cleanStep rooted) []

/-- Join components with `/`. -/
def joinSegs : List (List Char) → List Char
  | [] => []
  | [s] => s
  | s :: rest => s ++ '/' :: joinSegs rest

/-- Character-level model of Go `filepath.Clean` for slash-separated
paths. -/
def goCleanChars (s : List Char) : List Char :=
  if s = [] then ['.']
  else
    let rooted : Bool := s.head? == some '/'
    let joined := joinSegs (cleanSegs rooted (splitSlash s))
    if rooted then (if joined = [] then ['/'] else '/' :: joined)
    else (if joined = [] then ['.'] else joined)

/-- Go `filepath.Clean`. -/
def goClean (s : String) : String := ⟨goCleanChars s.data⟩

/-- Go `filepath.Join` on two elements: empty elements are skipped,
and the joined path is cleaned. -/
def goJoin2 (a b : String) : String :=
  if a ≠ "" then goClean (a ++ "/" ++ b)
  else if b ≠ "" then goClean b
  else ""

/-- Go `filepath.Join` on three elements. -/
def goJoin3 (a b c : String) : String :=
  if a ≠ "" then goClean (a ++ "/" ++ b ++ "/" ++ c)
  else goJoin2 b c

/-! ### Data model (`PublishedRepo`, debian/publish.go lines 19-36) -/

/-- Published repository entity. The Go field `Prefix` is called `Pfx`
here (the Go name is not usable as a Lean identifier in this
development); all other field names follow the source. The transient
`snapshot`/`localRepo` handles are not persisted and are represented
by the `PublishSource` value where needed. -/
structure PublishedRepo where
  UUID : String
  Pfx : String
  Distribution : String
  Component : String
  Architectures : List String
  SourceKind : String
  SourceUUID : String
deriving DecidableEq, Repr, Inhabited

/-- Source of a published repository: either a snapshot or a local
repo (the `interface{}` type switch of `NewPublishedRepo`, lines
52-64; the `panic` branch is unrepresentable). -/
inductive PublishSource where
  | snapshot (uuid : String)
  | localRepo (uuid : String)
deriving DecidableEq, Repr

def PublishSource.kind : PublishSource → String
  | .snapshot _ => "snapshot"
  | .localRepo _ => "local"

def PublishSource.uuid : PublishSource → String
  | .snapshot u => u
  | .localRepo u => u

/-- Key returns the unique key identifying a PublishedRepo
(lines 177-179). -/
def repoKey (p : PublishedRepo) : String :=
  "U" ++ p.Pfx ++ ">>" ++ p.Distribution

/-! ### Encoding and decoding (lines 181-205)

The msgpack byte-level codec is an external library; it is modelled
by a record holding exactly the persisted fields. The source UUID is
stored under the legacy field name `SnapshotUUID`
(codec tag on line 32). -/

/-- Persisted form of a `PublishedRepo`. -/
structure PublishedRepoRecord where
  UUID : String
  Pfx : String
  Distribution : String
  Component : String
  Architectures : List String
  SourceKind : String
  SnapshotUUID : String
deriving DecidableEq, Repr

/-- Encode does msgpack encoding of PublishedRepo (lines 181-189):
all persisted fields are written out. -/
def Encode (p : PublishedRepo) : PublishedRepoRecord :=
  { UUID := p.UUID, Pfx := p.Pfx, Distribution := p.Distribution,
    Component := p.Component, Architectures := p.Architectures,
    SourceKind := p.SourceKind, SnapshotUUID := p.SourceUUID }

/-- Decode decodes the msgpack representation (lines 191-205): an
empty `SourceKind` is coerced to `"snapshot"` (legacy records). -/
def Decode (r : PublishedRepoRecord) : PublishedRepo :=
  { UUID := r.UUID, Pfx := r.Pfx, Distribution := r.Distribution,
    Component := r.Component, Architectures := r.Architectures,
    SourceKind := if r.SourceKind = "" then "snapshot" else r.SourceKind,
    SourceUUID := r.SnapshotUUID }

/-! ### Prefix normalization (lines 66-82) -/

/-- Strip one leading slash (`strings.HasPrefix` + reslice, lines
68-70). -/
def stripLeadSlash (s : List Char) : List Char :=
  match s with
  | '/' :: t => t
  | t => t

/-- Strip one trailing slash (`strings.HasSuffix` + reslice, lines
71-73). -/
def stripTrailSlash (s : List Char) : List Char :=
  if s.getLast? = some '/' then s.dropLast else s

/-- Normal form of a publishing path: clean, strip a single leading
and a single trailing slash, clean again (lines 67-74). -/
def normFormChars (s : List Char) : List Char :=
  goCleanChars (stripTrailSlash (stripLeadSlash (goCleanChars s)))

def normForm (s : String) : String := ⟨normFormChars s.data⟩

/-- Segment check of lines 76-80: some `/`-separated part equals
`..`, `dists` or `pool`. -/
def hasBadSeg (s : String) : Bool :=
  (splitSlash s.data).any
    (fun part => part == ['.', '.'] || part == "dists".data || part == "pool".data)

/-- Clean-and-verify of the publishing path (lines 66-82). -/
def normalizePfx (s : String) : Except String String :=
  let p := normForm s
  if hasBadSeg p then Except.error ("invalid prefix " ++ p)
  else Except.ok p

/-! ### Construction (`NewPublishedRepo`, lines 43-158) -/

/-- Model of Go `sort.Strings`. Go's sort may be any correct sorting
algorithm; since `≤` on strings is a total antisymmetric order the
sorted permutation is unique, so insertion sort is extensionally
faithful. -/
def sortStrings (l : List String) : List String :=
  List.insertionSort (· ≤ ·) l

/-- NewPublishedRepo creates a new published repository (lines
43-158). The fresh UUID (line 47) is a parameter. The source-graph
walk of lines 95-135 only produces the two lists `rootDistributions`
and `rootComponents`; the claims under verification quantify over
those collected lists, so the walk is abstracted by passing its
outputs as parameters. -/
def NewPublishedRepo (uuid : String) (pfxArg distributionArg componentArg : String)
    (architectures : List String) (source : PublishSource)
    (rootDistributions rootComponents : List String) :
    Except String PublishedRepo := do
  let pfx ← normalizePfx pfxArg
  let (distribution, component) ←
    if componentArg = "" ∨ distributionArg = "" then do
      let distribution ←
        if distributionArg = "" then
          let sorted := sortStrings rootDistributions
          if 0 < sorted.length ∧ sorted.headD "" = sorted.getLastD "" then
            pure (sorted.headD "")
          else
            Except.error "unable to guess distribution name, please specify explicitly"
        else pure distributionArg
      let component :=
        if componentArg = "" then
          let sorted := sortStrings rootComponents
          if 0 < sorted.length ∧ sorted.headD "" = sorted.getLastD "" then
            sorted.headD ""
          else "main"
        else componentArg
      pure (distribution, component)
    else pure (distributionArg, componentArg)
  return { UUID := uuid, Pfx := pfx, Distribution := distribution,
           Component := component, Architectures := architectures,
           SourceKind := source.kind, SourceUUID := source.uuid }

/-! ### Publish pipeline front end (lines 208-251)

Only the package-list and architecture handling is embedded; the
storage and file generation below line 251 is I/O against the
`PublishedStorage` collaborator. -/

/-- Package as far as architecture resolution is concerned. Source
packages carry the pseudo-architecture `source`. -/
structure ModelPackage where
  Architecture : String
deriving DecidableEq, Repr

/-- Modelled from the spec: `PackageList.Architectures(includeSource)`
lives in `debian/list.go`, which is not among the sources. The spec
says the architecture list is computed from the package list,
"including `source` when source packages are present", and that an
empty result is possible for a non-empty list (step 3 errors on an
empty result): packages of architecture `all` belong to every binary
index and contribute no architecture of their own, and `source`
entries are kept only when `includeSource` is set. -/
def listArchitectures (includeSource : Bool) (pkgs : List ModelPackage) : List String :=
  (pkgs.filterMap (fun p =>
    if p.Architecture ≠ "all" ∧ (includeSource ∨ p.Architecture ≠ "source") then
      some p.Architecture
    else none)).dedup

/-- Architecture resolution steps of `Publish` (lines 239-251): an
empty package list is an error, an empty `Architectures` list is
computed from the packages, a still-empty list is an error, and the
final list is sorted. -/
def publishArchResolve (p : PublishedRepo) (pkgs : List ModelPackage) :
    Except String (List String) :=
  if pkgs.length = 0 then Except.error "snapshot is empty"
  else
    let archs := if p.Architectures.length = 0 then listArchitectures true pkgs
                 else p.Architectures
    if archs.length = 0 then
      Except.error "unable to figure out list of architectures, please supply explicit list"
    else Except.ok (sortStrings archs)

/-- Checksum information for a generated file
(`utils.ChecksumInfo`). -/
structure ChecksumInfo where
  Size : Int
  MD5 : String
  SHA1 : String
  SHA256 : String
deriving DecidableEq, Repr

/-- Space padding of `fmt.Sprintf("%8d", n)`. -/
def padNum8 (n : Int) : String :=
  let s := toString n
  ⟨List.replicate (8 - s.length) ' '⟩ ++ s

/-- Modelled from the spec: `utils.StrSlicesSubstract` is in the
`utils` package, which is not among the sources; per the spec the
Release `Architectures` value is the list "with the `source`
pseudo-architecture removed", so the function removes from the first
list every element of the second. -/
def strSlicesSubstract (a b : List String) : List String :=
  a.filter (fun x => x ∉ b)

/-- Checksum block of the Release stanza: a newline followed by one
line per generated file, `" %s %8d %s\n"` (lines 358-366). -/
def checksumBlock (hashOf : ChecksumInfo → String)
    (generatedFiles : List (String × ChecksumInfo)) : String :=
  generatedFiles.foldl
    (fun acc pi =>
      acc ++ " " ++ hashOf pi.snd ++ " " ++ padNum8 pi.snd.Size ++ " " ++ pi.fst ++ "\n")
    "\n"

/-- Release stanza built by `Publish` (lines 350-366), as the list of
key/value pairs in the order the code sets them. `dateStr` stands for
the wall-clock `Date` value; `generatedFiles` is the generated-files
map in its (unspecified) iteration order. -/
def releaseStanza (p : PublishedRepo) (dateStr : String)
    (generatedFiles : List (String × ChecksumInfo)) : List (String × String) :=
  [("Origin", p.Pfx ++ " " ++ p.Distribution),
   ("Label", p.Pfx ++ " " ++ p.Distribution),
   ("Codename", p.Distribution),
   ("Date", dateStr),
   ("Components", p.Component),
   ("Architectures", String.intercalate " " (strSlicesSubstract p.Architectures ["source"])),
   ("Description", " Generated by aptly\n"),
   ("MD5Sum", checksumBlock (fun i => i.MD5) generatedFiles),
   ("SHA1", checksumBlock (fun i => i.SHA1) generatedFiles),
   ("SHA256", checksumBlock (fun i => i.SHA256) generatedFiles)]

/-! ### RemoveFiles (lines 408-433) -/

/-- Directory-removal requests issued by `RemoveFiles`, in order:
with `removePfx` the whole `dists` and `pool` trees under the
publishing path; otherwise `dists/<Distribution>` and, with
`removePoolComponent`, `pool/<Component>`. -/
def removeFilesList (p : PublishedRepo) (removePfx removePoolComponent : Bool) :
    List String :=
  if removePfx then
    [goJoin2 p.Pfx "dists", goJoin2 p.Pfx "pool"]
  else
    [goJoin3 p.Pfx "dists" p.Distribution] ++
      (if removePoolComponent then [goJoin3 p.Pfx "pool" p.Component] else [])

/-- Run the removal requests against the storage, stopping at the
first error (each `RemoveDirs` result is checked in turn); returns
the error, if any, and the directories removed so far. -/
def runRm (rmDirs : String → Except String Unit) :
    List String → Option String × List String
  | [] => (none, [])
  | d :: rest =>
    match rmDirs d with
    | Except.error e => (some e, [])
    | Except.ok _ =>
      match runRm rmDirs rest with
      | (r, done) => (r, d :: done)

/-! ### The collection (lines 435-604) -/

/-- Replace-or-insert into the key-value store. -/
def dbPut (db : List (String × PublishedRepoRecord)) (k : String)
    (v : PublishedRepoRecord) : List (String × PublishedRepoRecord) :=
  if db.any (fun kv => kv.fst == k) then
    db.map (fun kv => if kv.fst == k then (k, v) else kv)
  else db ++ [(k, v)]

/-- Delete a key from the key-value store. -/
def dbDelete (db : List (String × PublishedRepoRecord)) (k : String) :
    List (String × PublishedRepoRecord) :=
  db.filter (fun kv => kv.fst ≠ k)

/-- PublishedRepoCollection (lines 436-439): the key-value store and
the in-memory list. -/
structure PublishedRepoCollection where
  db : List (String × PublishedRepoRecord)
  list : List PublishedRepo
deriving Repr

/-- CheckDuplicate (lines 477-486): first entry with the same
prefix/distribution pair. -/
def CheckDuplicate (c : PublishedRepoCollection) (repo : PublishedRepo) :
    Option PublishedRepo :=
  c.list.find? (fun r => r.Pfx == repo.Pfx && r.Distribution == repo.Distribution)

/-- Update (lines 489-495): persist at the natural key. -/
def Update (c : PublishedRepoCollection) (repo : PublishedRepo) :
    PublishedRepoCollection :=
  { c with db := dbPut c.db (repoKey repo) (Encode repo) }

/-- Add (lines 463-475): reject duplicates, else persist then append
in-memory. -/
def Add (c : PublishedRepoCollection) (repo : PublishedRepo) :
    Except String PublishedRepoCollection :=
  if (CheckDuplicate c repo).isSome then
    Except.error ("published repo with prefix/distribution " ++ repo.Pfx ++ "/" ++
      repo.Distribution ++ " already exists")
  else
    Except.ok { Update c repo with list := c.list ++ [repo] }

/-- ByPrefixDistribution (lines 513-520), as the index of the first
matching entry. Entries of the Go list are distinct allocations, so
the later pointer-identity test `r == repo` of `Remove` is the test
against this index. -/
def findIdxPD (l : List PublishedRepo) (pfx dist : String) : Option Nat :=
  l.findIdx? (fun r => r.Pfx == pfx && r.Distribution == dist)

/-- Flag computation loop of `Remove` (lines 578-593): every entry
other than the target that shares the publishing path clears
`removePrefix`, and additionally clears `removePoolComponent` when it
also shares the component. -/
def removeFlagsAux (repo : PublishedRepo) (idx : Nat) :
    List PublishedRepo → Nat → Bool → Bool → Bool × Bool
  | [], _, rp, rpc => (rp, rpc)
  | r :: rest, i, rp, rpc =>
    if i = idx then removeFlagsAux repo idx rest (i + 1) rp rpc
    else if r.Pfx = repo.Pfx then
      removeFlagsAux repo idx rest (i + 1) false
        (if r.Component = repo.Component then false else rpc)
    else removeFlagsAux repo idx rest (i + 1) rp rpc

def removeFlags (repo : PublishedRepo) (l : List PublishedRepo) (idx : Nat) :
    Bool × Bool :=
  removeFlagsAux repo idx l 0 true true

/-- List splice of lines 600-601: the right-hand sides are evaluated
first, so the slot of the removed entry receives the original last
element and the list is truncated by one; the `nil` written to the
last slot is either overwritten (when the target is last) or dropped
by the truncation, so it never appears in the result. -/
def swapRemove (l : List PublishedRepo) (idx : Nat) : List PublishedRepo :=
  (l.set idx (l.getLastD default)).dropLast

/-- Outcome of `Remove`: the error if any, the collection afterwards,
and the directories actually removed from the published storage. -/
structure RemoveOutcome where
  err : Option String
  coll : PublishedRepoCollection
  removed : List String
deriving Repr

/-- Remove (lines 571-604). The storage's `RemoveDirs` is the
`rmDirs` parameter. The in-memory list and the persisted record are
touched only after `RemoveFiles` has succeeded. -/
def RemoveRepo (rmDirs : String → Except String Unit)
    (c : PublishedRepoCollection) (pfx dist : String) : RemoveOutcome :=
  match findIdxPD c.list pfx dist with
  | none =>
    ⟨some ("published repo with prefix/distribution " ++ pfx ++ "/" ++ dist ++
      " not found"), c, []⟩
  | some idx =>
    let repo := c.list.getD idx default
    let fl := removeFlags repo c.list idx
    match runRm rmDirs (removeFilesList repo fl.fst fl.snd) with
    | (some e, done) => ⟨some e, c, done⟩
    | (none, done) =>
      ⟨none, { db := dbDelete c.db (repoKey repo), list := swapRemove c.list idx }, done⟩

/-- Collections built by a sequence of `Add`, `Update` and `Remove`
operations starting from an empty in-memory list. -/
inductive Reachable : PublishedRepoCollection → Prop where
  | start : ∀ db, Reachable ⟨db, []⟩
  | add : ∀ c repo c', Reachable c → Add c repo = Except.ok c' → Reachable c'
  | update : ∀ c repo, Reachable c → Reachable (Update c repo)
  | remove : ∀ rmDirs c pfx dist, Reachable c →
      Reachable (RemoveRepo rmDirs c pfx dist).coll

/-! ### Predicates used to state the shared-path removal claim -/

/-- Some entry of the list other than the one at `idx` shares the
publishing path of `X`. -/
def sharesPfxAt (l : List PublishedRepo) (idx : Nat) (X : PublishedRepo) : Prop :=
  ∃ j, j < l.length ∧ j ≠ idx ∧ (l.getD j default).Pfx = X.Pfx

/-- Some entry other than the one at `idx` shares both the publishing
path and the component of `X`. -/
def sharesPfxCompAt (l : List PublishedRepo) (idx : Nat) (X : PublishedRepo) : Prop :=
  ∃ j, j < l.length ∧ j ≠ idx ∧ (l.getD j default).Pfx = X.Pfx ∧
    (l.getD j default).Component = X.Component

/-- Well-formed single path segment: non-empty, not `.` or `..`, and
slash-free (true of any constructed distribution or component
name). -/
def segOK (s : String) : Prop :=
  s ≠ "" ∧ s ≠ "." ∧ s ≠ ".." ∧ '/' ∉ s.data

/-- Length contributed by cleaning a path `P` before a pushed
segment: the length of the cleaned stack of `P` plus one for the
separating slash (zero when the stack is empty) plus one for a root
slash. -/
def cleanBase (P : List Char) : Nat :=
  (if cleanSegs (P.head? == some '/') (splitSlash P) = [] then 0
   else (joinSegs (cleanSegs (P.head? == some '/') (splitSlash P))).length + 1) +
  (if P.head? == some '/' then 1 else 0)

/-! ## Helper lemmas on sorting -/

theorem sorted_le_getLast (l : List String) (hne : l ≠ []) (hs : List.Sorted (· ≤ ·) l)
    (x : String) (hx : x ∈ l) : x ≤ l.getLast hne := by
  induction l with
  | nil => cases hx
  | cons a t ih =>
    rcases List.sorted_cons.mp hs with ⟨ha, ht⟩
    cases t with
    | nil => simp at hx; simp [hx]
    | cons b t2 =>
      rw [List.getLast_cons (by simp)]
      rcases List.mem_cons.mp hx with rfl | hxt
      · exact ha _ (List.getLast_mem (by simp))
      · exact ih (by simp) ht hxt

theorem sorted_head_le (l : List String) (hne : l ≠ []) (hs : List.Sorted (· ≤ ·) l)
    (x : String) (hx : x ∈ l) : l.head hne ≤ x := by
  cases l with
  | nil => cases hx
  | cons a t =>
    rcases List.sorted_cons.mp hs with ⟨ha, _⟩
    rcases List.mem_cons.mp hx with rfl | hxt
    · simp
    · simpa using ha x hxt

theorem headD_eq_head (l : List String) (hne : l ≠ []) : l.headD "" = l.head hne := by
  cases l with
  | nil => exact absurd rfl hne
  | cons a t => rfl

theorem getLastD_eq_getLast (l : List String) (hne : l ≠ []) :
    l.getLastD "" = l.getLast hne := by
  rw [List.getLastD_eq_getLast?, List.getLast?_eq_getLast _ hne]
  rfl

/-- Characterization of the sort-then-compare-ends test of
`NewPublishedRepo` (lines 139 and 148): it holds exactly when the
collected list is non-empty and all elements are equal. -/
theorem sortStrings_adopt_iff (l : List String) :
    (0 < (sortStrings l).length ∧
      (sortStrings l).headD "" = (sortStrings l).getLastD "") ↔
    (l ≠ [] ∧ ∀ x ∈ l, ∀ y ∈ l, x = y) := by
  have hperm : List.Perm (sortStrings l) l := List.perm_insertionSort _ l
  have hsort : List.Sorted (· ≤ ·) (sortStrings l) := List.sorted_insertionSort _ l
  constructor
  · rintro ⟨hlen, heq⟩
    have hne : sortStrings l ≠ [] := List.ne_nil_of_length_pos hlen
    have hlne : l ≠ [] := by
      intro h
      apply hne
      rw [h]
      rfl
    refine ⟨hlne, fun x hx y hy => ?_⟩
    rw [headD_eq_head _ hne, getLastD_eq_getLast _ hne] at heq
    have hx2 : x ∈ sortStrings l := hperm.mem_iff.mpr hx
    have hy2 : y ∈ sortStrings l := hperm.mem_iff.mpr hy
    have h1 : x ≤ y :=
      le_trans (sorted_le_getLast _ hne hsort x hx2)
        (heq ▸ sorted_head_le _ hne hsort y hy2)
    have h2 : y ≤ x :=
      le_trans (sorted_le_getLast _ hne hsort y hy2)
        (heq ▸ sorted_head_le _ hne hsort x hx2)
    exact le_antisymm h1 h2
  · rintro ⟨hlne, hall⟩
    have hne : sortStrings l ≠ [] := by
      intro h
      rw [h] at hperm
      exact hlne (List.Perm.nil_eq hperm).symm
    refine ⟨List.length_pos_of_ne_nil hne, ?_⟩
    rw [headD_eq_head _ hne, getLastD_eq_getLast _ hne]
    exact hall _ (hperm.mem_iff.mp (List.head_mem hne)) _
      (hperm.mem_iff.mp (List.getLast_mem hne))

theorem sortStrings_headD_mem (l : List String) (hlne : l ≠ []) :
    (sortStrings l).headD "" ∈ l := by
  have hperm : List.Perm (sortStrings l) l := List.perm_insertionSort _ l
  have hne : sortStrings l ≠ [] := by
    intro h
    rw [h] at hperm
    exact hlne (List.Perm.nil_eq hperm).symm
  rw [headD_eq_head _ hne]
  exact hperm.mem_iff.mp (List.head_mem hne)

/-! ## Claim theorems -/

/-- C3: `NewPublishedRepo` normalizes the input publishing path by
path-cleaning, stripping a single leading slash and a single trailing
slash, and path-cleaning again (`normForm`); if any slash-separated
segment of the result equals `..`, `dists` or `pool`, construction
fails with the error `invalid prefix <p>` naming the normalized
offending path, otherwise the entity carries the normalized form
(input `/foo/bar/` yields `foo/bar`). -/
theorem claim_pfx_normalization (uuid pfxArg d comp : String) (archs : List String)
    (src : PublishSource) (rdists rcomps : List String)
    (hd : d ≠ "") (hc : comp ≠ "") :
    (hasBadSeg (normForm pfxArg) = true →
      NewPublishedRepo uuid pfxArg d comp archs src rdists rcomps =
        Except.error ("invalid prefix " ++ normForm pfxArg)) ∧
    (hasBadSeg (normForm pfxArg) = false →
      NewPublishedRepo uuid pfxArg d comp archs src rdists rcomps =
        Except.ok ⟨uuid, normForm pfxArg, d, comp, archs, src.kind, src.uuid⟩) ∧
    (hasBadSeg (normForm pfxArg) = true ↔
      ∃ part ∈ splitSlash (normForm pfxArg).data,
        part = ['.', '.'] ∨ part = "dists".data ∨ part = "pool".data) ∧
    normForm "/foo/bar/" = "foo/bar" := by
  refine ⟨fun hb => ?_, fun hb => ?_, ?_, rfl⟩
  · unfold NewPublishedRepo normalizePfx
    simp [hb, Bind.bind, Except.bind]
  · unfold NewPublishedRepo normalizePfx
    simp [hb, hd, hc, Bind.bind, Except.bind, pure, Except.pure]
  · simp [hasBadSeg, List.any_eq_true, or_assoc]

theorem claim_pfx_normalization_witness :
    NewPublishedRepo "u" "/foo/bar/" "d" "c" [] (PublishSource.snapshot "s") [] [] =
      Except.ok ⟨"u", "foo/bar", "d", "c", [], "snapshot", "s"⟩ ∧
    NewPublishedRepo "u" "foo/dists/x" "d" "c" [] (PublishSource.snapshot "s") [] [] =
      Except.error "invalid prefix foo/dists/x" := by
  constructor
  · have h := (claim_pfx_normalization "u" "/foo/bar/" "d" "c" []
      (PublishSource.snapshot "s") [] [] (by decide) (by decide)).2.1 (by decide)
    rw [show normForm "/foo/bar/" = "foo/bar" from rfl] at h
    exact h
  · have h := (claim_pfx_normalization "u" "foo/dists/x" "d" "c" []
      (PublishSource.snapshot "s") [] [] (by decide) (by decide)).1 (by decide)
    rw [show normForm "foo/dists/x" = "foo/dists/x" from rfl] at h
    exact h

/-- C4: with an empty distribution argument, `NewPublishedRepo`
adopts the collected root distribution exactly when the list of root
distributions collected by the source-graph walk is non-empty and all
of its elements are equal; in every other case it fails with
`unable to guess distribution name, please specify explicitly`. -/
theorem claim_guess_distribution (uuid pfxArg comp : String) (archs : List String)
    (src : PublishSource) (rdists rcomps : List String)
    (hb : hasBadSeg (normForm pfxArg) = false) :
    ((rdists ≠ [] ∧ ∀ x ∈ rdists, ∀ y ∈ rdists, x = y) →
      ∃ r, NewPublishedRepo uuid pfxArg "" comp archs src rdists rcomps = Except.ok r ∧
        r.Distribution ∈ rdists ∧ ∀ x ∈ rdists, x = r.Distribution) ∧
    (¬ (rdists ≠ [] ∧ ∀ x ∈ rdists, ∀ y ∈ rdists, x = y) →
      NewPublishedRepo uuid pfxArg "" comp archs src rdists rcomps =
        Except.error "unable to guess distribution name, please specify explicitly") := by
  constructor
  · rintro ⟨hne, hall⟩
    have hcond := (sortStrings_adopt_iff rdists).mpr ⟨hne, hall⟩
    have hmem : (sortStrings rdists).headD "" ∈ rdists := sortStrings_headD_mem rdists hne
    unfold NewPublishedRepo normalizePfx
    simp only [hb, Bool.false_eq_true, if_false, Bind.bind, Except.bind, if_pos hcond,
      reduceIte, eq_self_iff_true, or_true, if_true]
    exact ⟨_, rfl, hmem, fun x hx => hall x hx _ hmem⟩
  · intro hn
    have hncond : ¬ (0 < (sortStrings rdists).length ∧
        (sortStrings rdists).headD "" = (sortStrings rdists).getLastD "") :=
      fun hc => hn ((sortStrings_adopt_iff rdists).mp hc)
    unfold NewPublishedRepo normalizePfx
    simp only [hb, Bool.false_eq_true, if_false, Bind.bind, Except.bind, if_neg hncond,
      reduceIte, eq_self_iff_true, or_true, if_true]

theorem claim_guess_distribution_witness :
    (∃ r, NewPublishedRepo "u" "p" "" "c" [] (PublishSource.snapshot "s")
        ["wheezy", "wheezy"] [] = Except.ok r ∧
      r.Distribution ∈ ["wheezy", "wheezy"] ∧
      ∀ x ∈ ["wheezy", "wheezy"], x = r.Distribution) ∧
    NewPublishedRepo "u" "p" "" "c" [] (PublishSource.snapshot "s")
        ["wheezy", "jessie"] [] =
      Except.error "unable to guess distribution name, please specify explicitly" := by
  constructor
  · exact (claim_guess_distribution "u" "p" "c" [] (PublishSource.snapshot "s")
      ["wheezy", "wheezy"] [] (by decide)).1 ⟨by decide, by decide⟩
  · refine (claim_guess_distribution "u" "p" "c" [] (PublishSource.snapshot "s")
      ["wheezy", "jessie"] [] (by decide)).2 ?_
    rintro ⟨-, hall⟩
    exact absurd (hall "wheezy" (by decide) "jessie" (by decide)) (by decide)

/-- C5: with an empty component argument, `NewPublishedRepo` adopts
the collected root component when the components collected by the
walk are non-empty and all equal; in every other case it defaults the
component to `main`, and construction succeeds either way (no error
on account of the component). -/
theorem claim_guess_component (uuid pfxArg d : String) (archs : List String)
    (src : PublishSource) (rdists rcomps : List String)
    (hb : hasBadSeg (normForm pfxArg) = false) (hd : d ≠ "") :
    ((rcomps ≠ [] ∧ ∀ x ∈ rcomps, ∀ y ∈ rcomps, x = y) →
      ∃ r, NewPublishedRepo uuid pfxArg d "" archs src rdists rcomps = Except.ok r ∧
        r.Component ∈ rcomps ∧ (∀ x ∈ rcomps, x = r.Component) ∧ r.Distribution = d) ∧
    (¬ (rcomps ≠ [] ∧ ∀ x ∈ rcomps, ∀ y ∈ rcomps, x = y) →
      ∃ r, NewPublishedRepo uuid pfxArg d "" archs src rdists rcomps = Except.ok r ∧
        r.Component = "main" ∧ r.Distribution = d) := by
  constructor
  · rintro ⟨hne, hall⟩
    have hcond := (sortStrings_adopt_iff rcomps).mpr ⟨hne, hall⟩
    have hmem : (sortStrings rcomps).headD "" ∈ rcomps := sortStrings_headD_mem rcomps hne
    unfold NewPublishedRepo normalizePfx
    simp only [hb, Bool.false_eq_true, if_false, Bind.bind, Except.bind, if_pos hcond,
      hd, reduceIte, eq_self_iff_true, true_or, or_true, if_true, if_neg hd]
    exact ⟨_, rfl, hmem, fun x hx => hall x hx _ hmem, rfl⟩
  · intro hn
    have hncond : ¬ (0 < (sortStrings rcomps).length ∧
        (sortStrings rcomps).headD "" = (sortStrings rcomps).getLastD "") :=
      fun hc => hn ((sortStrings_adopt_iff rcomps).mp hc)
    unfold NewPublishedRepo normalizePfx
    simp only [hb, Bool.false_eq_true, if_false, Bind.bind, Except.bind, if_neg hncond,
      hd, reduceIte, eq_self_iff_true, true_or, or_true, if_true, if_neg hd]
    exact ⟨_, rfl, rfl, rfl⟩

theorem claim_guess_component_witness :
    ∃ r, NewPublishedRepo "u" "p" "wheezy" "" [] (PublishSource.snapshot "s")
        [] ["main", "contrib"] = Except.ok r ∧
      r.Component = "main" ∧ r.Distribution = "wheezy" := by
  refine (claim_guess_component "u" "p" "wheezy" [] (PublishSource.snapshot "s")
    [] ["main", "contrib"] (by decide) (by decide)).2 ?_
  rintro ⟨-, hall⟩
  exact absurd (hall "main" (by decide) "contrib" (by decide)) (by decide)

/-- C6 (counterexample): the round trip is not the identity on every
`PublishedRepo` value: a value whose `SourceKind` is the empty string
decodes to `SourceKind = "snapshot"`, so `Decode (Encode p) ≠ p`
there. -/
theorem claim_encode_decode_cex :
    (Decode (Encode ⟨"u", "p", "d", "c", [], "", "s"⟩)).SourceKind = "snapshot" ∧
    ¬ (Decode (Encode ⟨"u", "p", "d", "c", [], "", "s"⟩) =
       (⟨"u", "p", "d", "c", [], "", "s"⟩ : PublishedRepo)) := by
  exact ⟨rfl, by decide⟩

/-- C6 (amended): for every `PublishedRepo` whose `SourceKind` is
non-empty (which includes every constructed value, where it is
`snapshot` or `local`), `Decode (Encode p)` succeeds and equals `p`
on all persisted fields; and decoding any record with an empty
`SourceKind` yields `SourceKind = "snapshot"`. -/
theorem claim_encode_decode_amended (p : PublishedRepo) (h : p.SourceKind ≠ "") :
    Decode (Encode p) = p ∧
    ∀ r : PublishedRepoRecord, r.SourceKind = "" → (Decode r).SourceKind = "snapshot" := by
  constructor
  · simp [Decode, Encode, h]
  · intro r hr
    simp [Decode, hr]

theorem claim_encode_decode_witness :
    Decode (Encode ⟨"u", "p", "d", "c", ["amd64"], "snapshot", "s"⟩) =
      (⟨"u", "p", "d", "c", ["amd64"], "snapshot", "s"⟩ : PublishedRepo) ∧
    ∀ r : PublishedRepoRecord, r.SourceKind = "" → (Decode r).SourceKind = "snapshot" :=
  claim_encode_decode_amended ⟨"u", "p", "d", "c", ["amd64"], "snapshot", "s"⟩ (by decide)

/-- C8: in the Release stanza written by `Publish`, `Architectures`
is the space-joined architecture list with the pseudo-architecture
`source` removed, `Origin` and `Label` both equal
`<Prefix> <Distribution>`, `Codename` equals the distribution and
`Components` equals the component. -/
theorem claim_release_stanza_fields (p : PublishedRepo) (dateStr : String)
    (generatedFiles : List (String × ChecksumInfo)) :
    (releaseStanza p dateStr generatedFiles).lookup "Origin" =
      some (p.Pfx ++ " " ++ p.Distribution) ∧
    (releaseStanza p dateStr generatedFiles).lookup "Label" =
      some (p.Pfx ++ " " ++ p.Distribution) ∧
    (releaseStanza p dateStr generatedFiles).lookup "Codename" =
      some p.Distribution ∧
    (releaseStanza p dateStr generatedFiles).lookup "Components" =
      some p.Component ∧
    (releaseStanza p dateStr generatedFiles).lookup "Architectures" =
      some (String.intercalate " "
        (p.Architectures.filter (fun a => a ≠ "source"))) := by
  refine ⟨?_, ?_, ?_, ?_, ?_⟩ <;>
    simp [releaseStanza, List.lookup, strSlicesSubstract]

/-- C9: with the publishing path given as `""` or `"/"` and explicit
non-empty distribution and component, `NewPublishedRepo` succeeds and
the entity's path is `"."` (the root): path-cleaning maps both inputs
to `"."`, which the segment check does not reject. -/
theorem claim_root_pfx (uuid d comp : String) (archs : List String)
    (src : PublishSource) (rdists rcomps : List String)
    (hd : d ≠ "") (hc : comp ≠ "") :
    NewPublishedRepo uuid "" d comp archs src rdists rcomps =
      Except.ok ⟨uuid, ".", d, comp, archs, src.kind, src.uuid⟩ ∧
    NewPublishedRepo uuid "/" d comp archs src rdists rcomps =
      Except.ok ⟨uuid, ".", d, comp, archs, src.kind, src.uuid⟩ := by
  constructor
  · unfold NewPublishedRepo
    rw [show normalizePfx "" = Except.ok "." from rfl]
    simp [hd, hc, Except.bind]
  · unfold NewPublishedRepo
    rw [show normalizePfx "/" = Except.ok "." from rfl]
    simp [hd, hc, Except.bind]

theorem claim_root_pfx_witness :
    NewPublishedRepo "u" "" "d" "c" ["amd64"] (PublishSource.localRepo "s") [] [] =
      Except.ok ⟨"u", ".", "d", "c", ["amd64"], "local", "s"⟩ ∧
    NewPublishedRepo "u" "/" "d" "c" ["amd64"] (PublishSource.localRepo "s") [] [] =
      Except.ok ⟨"u", ".", "d", "c", ["amd64"], "local", "s"⟩ :=
  claim_root_pfx "u" "d" "c" ["amd64"] (PublishSource.localRepo "s") [] []
    (by decide) (by decide)

/-- C7: `Publish` fails with `snapshot is empty` whenever the loaded
package list is empty; with an empty `Architectures` list it computes
the list from the packages (including `source` when source packages
are present) and fails asking for an explicit list when the result is
still empty; otherwise the final list is the lexicographically sorted
architecture list. -/
theorem claim_publish_arch_resolution (p : PublishedRepo) (pkgs : List ModelPackage) :
    (pkgs = [] → publishArchResolve p pkgs = Except.error "snapshot is empty") ∧
    (pkgs ≠ [] → p.Architectures = [] → listArchitectures true pkgs = [] →
      publishArchResolve p pkgs =
        Except.error "unable to figure out list of architectures, please supply explicit list") ∧
    (pkgs ≠ [] → p.Architectures = [] → listArchitectures true pkgs ≠ [] →
      publishArchResolve p pkgs = Except.ok (sortStrings (listArchitectures true pkgs))) ∧
    (pkgs ≠ [] → p.Architectures ≠ [] →
      publishArchResolve p pkgs = Except.ok (sortStrings p.Architectures)) ∧
    ((∃ pk ∈ pkgs, pk.Architecture = "source") → "source" ∈ listArchitectures true pkgs) ∧
    (∀ l, publishArchResolve p pkgs = Except.ok l → List.Sorted (· ≤ ·) l) := by
  refine ⟨?_, ?_, ?_, ?_, ?_, ?_⟩
  · intro h
    simp [publishArchResolve, h]
  · intro h1 h2 h3
    simp [publishArchResolve, List.length_eq_zero, h1, h2, h3]
  · intro h1 h2 h3
    simp [publishArchResolve, List.length_eq_zero, h1, h2, h3]
  · intro h1 h2
    simp [publishArchResolve, List.length_eq_zero, h1, h2]
  · rintro ⟨pk, hmem, hsrc⟩
    simp only [listArchitectures, List.mem_dedup, List.mem_filterMap]
    exact ⟨pk, hmem, by simp [hsrc]⟩
  · intro l hl
    by_cases h1 : pkgs.length = 0
    · simp [publishArchResolve, h1] at hl
    · by_cases h2 : p.Architectures.length = 0
      · by_cases h3 : (listArchitectures true pkgs).length = 0
        · simp [publishArchResolve, h1, h2, h3] at hl
        · simp [publishArchResolve, h1, h2, h3] at hl
          exact hl ▸ List.sorted_insertionSort _ _
      · simp [publishArchResolve, h1, h2] at hl
        exact hl ▸ List.sorted_insertionSort _ _

theorem claim_publish_arch_resolution_witness :
    publishArchResolve ⟨"u", "p", "d", "c", [], "snapshot", "s"⟩ [] =
      Except.error "snapshot is empty" ∧
    publishArchResolve ⟨"u", "p", "d", "c", [], "snapshot", "s"⟩ [⟨"all"⟩] =
      Except.error "unable to figure out list of architectures, please supply explicit list" ∧
    publishArchResolve ⟨"u", "p", "d", "c", [], "snapshot", "s"⟩ [⟨"source"⟩, ⟨"amd64"⟩] =
      Except.ok (sortStrings (listArchitectures true [⟨"source"⟩, ⟨"amd64"⟩])) := by
  refine ⟨?_, ?_, ?_⟩
  · exact (claim_publish_arch_resolution ⟨"u", "p", "d", "c", [], "snapshot", "s"⟩ []).1 rfl
  · exact (claim_publish_arch_resolution ⟨"u", "p", "d", "c", [], "snapshot", "s"⟩
      [⟨"all"⟩]).2.1 (by decide) rfl (by decide)
  · exact (claim_publish_arch_resolution ⟨"u", "p", "d", "c", [], "snapshot", "s"⟩
      [⟨"source"⟩, ⟨"amd64"⟩]).2.2.1 (by decide) rfl (by decide)

/-- C10: `Remove` is atomic with respect to file-removal failure:
when `RemoveFiles` returns an error, `Remove` returns that error and
leaves both the in-memory list and the persisted store unchanged; the
list element is dropped and the key deleted only after `RemoveFiles`
succeeds. -/
theorem claim_remove_error_atomic (rmDirs : String → Except String Unit)
    (c : PublishedRepoCollection) (pfx dist : String) (idx : Nat)
    (hidx : findIdxPD c.list pfx dist = some idx) :
    (∀ e done, runRm rmDirs (removeFilesList (c.list.getD idx default)
        (removeFlags (c.list.getD idx default) c.list idx).fst
        (removeFlags (c.list.getD idx default) c.list idx).snd) = (some e, done) →
      RemoveRepo rmDirs c pfx dist = ⟨some e, c, done⟩) ∧
    (∀ done, runRm rmDirs (removeFilesList (c.list.getD idx default)
        (removeFlags (c.list.getD idx default) c.list idx).fst
        (removeFlags (c.list.getD idx default) c.list idx).snd) = (none, done) →
      RemoveRepo rmDirs c pfx dist =
        ⟨none, ⟨dbDelete c.db (repoKey (c.list.getD idx default)), swapRemove c.list idx⟩,
          done⟩) := by
  constructor
  · intro e done h
    unfold RemoveRepo
    rw [hidx]
    show (match runRm rmDirs (removeFilesList (c.list.getD idx default)
        (removeFlags (c.list.getD idx default) c.list idx).fst
        (removeFlags (c.list.getD idx default) c.list idx).snd) with
      | (some e2, done2) => RemoveOutcome.mk (some e2) c done2
      | (none, done2) => RemoveOutcome.mk none
          ⟨dbDelete c.db (repoKey (c.list.getD idx default)), swapRemove c.list idx⟩ done2) =
      RemoveOutcome.mk (some e) c done
    rw [h]
  · intro done h
    unfold RemoveRepo
    rw [hidx]
    show (match runRm rmDirs (removeFilesList (c.list.getD idx default)
        (removeFlags (c.list.getD idx default) c.list idx).fst
        (removeFlags (c.list.getD idx default) c.list idx).snd) with
      | (some e2, done2) => RemoveOutcome.mk (some e2) c done2
      | (none, done2) => RemoveOutcome.mk none
          ⟨dbDelete c.db (repoKey (c.list.getD idx default)), swapRemove c.list idx⟩ done2) =
      RemoveOutcome.mk none
        ⟨dbDelete c.db (repoKey (c.list.getD idx default)), swapRemove c.list idx⟩ done
    rw [h]

theorem claim_remove_error_atomic_witness :
    RemoveRepo (fun _ => Except.error "permission denied")
        ⟨[], [⟨"u1", "p", "a", "main", [], "snapshot", "s1"⟩]⟩ "p" "a" =
      ⟨some "permission denied",
        ⟨[], [⟨"u1", "p", "a", "main", [], "snapshot", "s1"⟩]⟩, []⟩ :=
  (claim_remove_error_atomic (fun _ => Except.error "permission denied")
      ⟨[], [⟨"u1", "p", "a", "main", [], "snapshot", "s1"⟩]⟩ "p" "a" 0 (by decide)).1
    "permission denied" [] (by decide)

/-! ## Helper lemmas for the collection invariant -/

theorem set_perm_eraseIdx_append (A : List PublishedRepo) (idx : Nat) (x : PublishedRepo)
    (h : idx < A.length) :
    List.Perm (A.set idx x) (A.eraseIdx idx ++ [x]) := by
  induction A generalizing idx with
  | nil => cases h
  | cons a as ih =>
    cases idx with
    | zero =>
      simp only [List.set_cons_zero, List.eraseIdx_cons_zero]
      exact (List.perm_append_singleton x as).symm
    | succ n =>
      simp only [List.set_cons_succ, List.eraseIdx_cons_succ, List.cons_append]
      exact List.Perm.cons a (ih n (by simpa using h))

/-- The splice of lines 600-601 produces a permutation of the list
with the target index erased. -/
theorem swapRemove_perm (l : List PublishedRepo) (idx : Nat) (h : idx < l.length) :
    List.Perm (swapRemove l idx) (l.eraseIdx idx) := by
  have hne : l ≠ [] := List.ne_nil_of_length_pos (Nat.lt_of_le_of_lt (Nat.zero_le _) h)
  obtain ⟨A, z, rfl⟩ : ∃ A z, l = A ++ [z] :=
    ⟨l.dropLast, l.getLast hne, (List.dropLast_concat_getLast hne).symm⟩
  have hz : (A ++ [z]).getLastD default = z := List.getLastD_concat _ _ _
  unfold swapRemove
  rw [hz]
  rcases Nat.lt_or_ge idx A.length with hidx | hidx
  · rw [List.set_append_left _ _ hidx, List.dropLast_concat,
      List.eraseIdx_append_of_lt_length hidx]
    exact set_perm_eraseIdx_append A idx z hidx
  · have hidx2 : idx = A.length := by
      have := List.length_append A [z] ▸ h
      simp at this
      omega
    subst hidx2
    rw [List.set_append_right _ _ (Nat.le_refl _),
      List.eraseIdx_append_of_length_le (Nat.le_refl _)]
    simp

theorem remove_pairwise (rm : String → Except String Unit) (c : PublishedRepoCollection)
    (pfx dist : String)
    (ih : List.Pairwise (fun a b => (a.Pfx, a.Distribution) ≠ (b.Pfx, b.Distribution)) c.list) :
    List.Pairwise (fun a b => (a.Pfx, a.Distribution) ≠ (b.Pfx, b.Distribution))
      (RemoveRepo rm c pfx dist).coll.list := by
  unfold RemoveRepo
  cases hfi : findIdxPD c.list pfx dist with
  | none => exact ih
  | some idx =>
    have hlt : idx < c.list.length := by
      have := List.findIdx?_eq_some_iff_getElem.mp hfi
      exact this.1
    cases hrun : runRm rm (removeFilesList (c.list.getD idx default)
        (removeFlags (c.list.getD idx default) c.list idx).fst
        (removeFlags (c.list.getD idx default) c.list idx).snd) with
    | mk e done =>
      cases e with
      | none =>
        simp only [hrun]
        exact ((swapRemove_perm c.list idx hlt).pairwise_iff
          (fun hab heq => hab heq.symm)).mpr
          (ih.sublist (List.eraseIdx_sublist c.list idx))
      | some e2 =>
        simp only [hrun]
        exact ih

theorem add_pairwise (c : PublishedRepoCollection) (repo : PublishedRepo)
    (c' : PublishedRepoCollection) (hadd : Add c repo = Except.ok c')
    (ih : List.Pairwise (fun a b => (a.Pfx, a.Distribution) ≠ (b.Pfx, b.Distribution)) c.list) :
    List.Pairwise (fun a b => (a.Pfx, a.Distribution) ≠ (b.Pfx, b.Distribution)) c'.list := by
  unfold AptlyPublish.Add at hadd
  by_cases hdup : (CheckDuplicate c repo).isSome
  · simp [hdup] at hadd
  · simp only [hdup, if_false, Bool.false_eq_true] at hadd
    injection hadd with hadd
    have hlist : c'.list = c.list ++ [repo] := by
      rw [← hadd]
    rw [hlist, List.pairwise_append]
    refine ⟨ih, List.pairwise_singleton _ _, ?_⟩
    intro a ha b hb
    rw [List.mem_singleton.mp hb]
    have hnone : CheckDuplicate c repo = none := Option.not_isSome_iff_eq_none.mp hdup
    have hfind := List.find?_eq_none.mp hnone a ha
    simp only [Bool.and_eq_true, beq_iff_eq, not_and_or] at hfind
    intro hkey
    have h1 : a.Pfx = repo.Pfx := congrArg Prod.fst hkey
    have h2 : a.Distribution = repo.Distribution := congrArg Prod.snd hkey
    rcases hfind with hf | hf <;> exact hf (by simp [h1, h2])

/-- C2: `Add(x)` fails, with a message naming the conflicting
prefix/distribution, exactly when an existing entry carries the same
`(Prefix, Distribution)` pair; on success `x` is persisted and
appended. Consequently every collection built by a sequence of
`Add`/`Update`/`Remove` operations has pairwise-distinct
`(Prefix, Distribution)` pairs. -/
theorem claim_add_duplicate_and_invariant :
    (∀ (c : PublishedRepoCollection) (repo : PublishedRepo),
      ((∃ e, Add c repo = Except.error e) ↔
        ∃ r ∈ c.list, r.Pfx = repo.Pfx ∧ r.Distribution = repo.Distribution) ∧
      ((∃ r ∈ c.list, r.Pfx = repo.Pfx ∧ r.Distribution = repo.Distribution) →
        Add c repo = Except.error ("published repo with prefix/distribution " ++
          repo.Pfx ++ "/" ++ repo.Distribution ++ " already exists")) ∧
      (∀ c', Add c repo = Except.ok c' →
        c'.list = c.list ++ [repo] ∧
        c'.db = dbPut c.db (repoKey repo) (Encode repo))) ∧
    (∀ c, Reachable c →
      List.Pairwise (fun a b => (a.Pfx, a.Distribution) ≠ (b.Pfx, b.Distribution)) c.list) := by
  constructor
  · intro c repo
    have hiff : (CheckDuplicate c repo).isSome = true ↔
        ∃ r ∈ c.list, r.Pfx = repo.Pfx ∧ r.Distribution = repo.Distribution := by
      unfold CheckDuplicate
      rw [List.find?_isSome]
      simp
    refine ⟨?_, ?_, ?_⟩
    · constructor
      · rintro ⟨e, he⟩
        unfold AptlyPublish.Add at he
        by_cases hdup : (CheckDuplicate c repo).isSome
        · exact hiff.mp hdup
        · simp [hdup] at he
      · intro hex
        exact ⟨_, by unfold AptlyPublish.Add; rw [if_pos (hiff.mpr hex)]⟩
    · intro hex
      unfold AptlyPublish.Add
      rw [if_pos (hiff.mpr hex)]
    · intro c' hok
      unfold AptlyPublish.Add at hok
      by_cases hdup : (CheckDuplicate c repo).isSome
      · rw [if_pos hdup] at hok
        cases hok
      · rw [if_neg hdup] at hok
        injection hok with hok
        rw [← hok]
        exact ⟨rfl, rfl⟩
  · intro c hc
    induction hc with
    | start db => exact List.Pairwise.nil
    | add c2 repo c' hr hadd ih => exact add_pairwise c2 repo c' hadd ih
    | update c2 repo hr ih => exact ih
    | remove rm c2 pfx dist hr ih => exact remove_pairwise rm c2 pfx dist ih

theorem claim_add_duplicate_and_invariant_witness :
    Add ⟨[], [⟨"u1", "p", "a", "main", [], "snapshot", "s1"⟩]⟩
        ⟨"u2", "p", "a", "contrib", [], "local", "s2"⟩ =
      Except.error "published repo with prefix/distribution p/a already exists" ∧
    List.Pairwise (fun a b => (a.Pfx, a.Distribution) ≠ (b.Pfx, b.Distribution))
      [(⟨"u1", "p", "a", "main", [], "snapshot", "s1"⟩ : PublishedRepo)] := by
  constructor
  · exact (claim_add_duplicate_and_invariant.1
      ⟨[], [⟨"u1", "p", "a", "main", [], "snapshot", "s1"⟩]⟩
      ⟨"u2", "p", "a", "contrib", [], "local", "s2"⟩).2.1
      ⟨⟨"u1", "p", "a", "main", [], "snapshot", "s1"⟩, by simp, rfl, rfl⟩
  · exact claim_add_duplicate_and_invariant.2
      ⟨[("Up>>a", Encode ⟨"u1", "p", "a", "main", [], "snapshot", "s1"⟩)],
        [⟨"u1", "p", "a", "main", [], "snapshot", "s1"⟩]⟩
      (Reachable.add ⟨[], []⟩ ⟨"u1", "p", "a", "main", [], "snapshot", "s1"⟩ _
        (Reachable.start []) rfl)

/-! ## Helper lemmas on the path model -/

theorem splitSlash_ne_nil (s : List Char) : splitSlash s ≠ [] := by
  induction s with
  | nil => simp [splitSlash]
  | cons c cs ih =>
    unfold splitSlash
    by_cases hc : c = '/'
    · simp [hc]
    · simp only [hc, if_false]
      cases h : splitSlash cs with
      | nil => simp
      | cons y ys => simp

theorem splitSlash_cons_slash (t : List Char) : splitSlash ('/' :: t) = [] :: splitSlash t := rfl

theorem splitSlash_append (a b : List Char) :
    splitSlash (a ++ '/' :: b) = splitSlash a ++ splitSlash b := by
  induction a with
  | nil => simp [splitSlash]
  | cons c cs ih =>
    by_cases hc : c = '/'
    · subst hc
      rw [List.cons_append, splitSlash_cons_slash, splitSlash_cons_slash, ih,
        List.cons_append]
    · rw [List.cons_append]
      unfold splitSlash
      simp only [hc, if_false]
      rw [ih]
      cases h : splitSlash cs with
      | nil => exact absurd h (splitSlash_ne_nil cs)
      | cons y ys => simp; rw [splitSlash.eq_def]

theorem splitSlash_no_slash (s : List Char) (hs : '/' ∉ s) : splitSlash s = [s] := by
  induction s with
  | nil => rfl
  | cons c cs ih =>
    unfold splitSlash
    have hc : c ≠ '/' := fun h => hs (h ▸ List.mem_cons_self c cs)
    have hcs : '/' ∉ cs := fun h => hs (List.mem_cons_of_mem c h)
    simp only [hc, if_false, ih hcs]

theorem cleanSegs_concat (r : Bool) (S : List (List Char)) (w : List Char)
    (hw : w ≠ [] ∧ w ≠ ['.'] ∧ w ≠ ['.', '.']) :
    cleanSegs r (S ++ [w]) = cleanSegs r S ++ [w] := by
  unfold cleanSegs
  rw [List.foldl_append]
  show cleanStep r (List.foldl (cleanStep r) [] S) w = _
  unfold cleanStep
  simp [hw.1, hw.2.1, hw.2.2]

theorem joinSegs_cons_cons (s s2 : List Char) (X : List (List Char)) :
    joinSegs (s :: s2 :: X) = s ++ '/' :: joinSegs (s2 :: X) := rfl

theorem joinSegs_concat (st : List (List Char)) (w : List Char) :
    joinSegs (st ++ [w]) = if st = [] then w else joinSegs st ++ '/' :: w := by
  induction st with
  | nil => simp [joinSegs]
  | cons s rest ih =>
    cases rest with
    | nil => simp [joinSegs]
    | cons s2 r2 =>
      simp only [List.cons_append] at ih ⊢
      rw [joinSegs_cons_cons s _ _, ih]
      simp [joinSegs_cons_cons]

theorem head_append_cons (P : List Char) (c : Char) (w : List Char) (hP : P ≠ []) :
    (P ++ c :: w).head? = P.head? := by
  cases P with
  | nil => exact absurd rfl hP
  | cons a as => rfl

theorem goCleanChars_seg_len (P w : List Char) (hP : P ≠ [])
    (hw : w ≠ [] ∧ w ≠ ['.'] ∧ w ≠ ['.', '.']) (hws : '/' ∉ w) :
    (goCleanChars (P ++ '/' :: w)).length = cleanBase P + w.length := by
  have hne : P ++ '/' :: w ≠ [] := by simp
  have hsplit : splitSlash (P ++ '/' :: w) = splitSlash P ++ [w] := by
    rw [splitSlash_append, splitSlash_no_slash w hws]
  unfold goCleanChars cleanBase
  rw [if_neg hne, head_append_cons P '/' w hP, hsplit]
  dsimp only
  rw [cleanSegs_concat _ _ _ hw, joinSegs_concat]
  have hwlen : 0 < w.length := List.length_pos_of_ne_nil hw.1
  cases hr : (P.head? == some '/') with
  | false =>
    by_cases hB : cleanSegs false (splitSlash P) = []
    · rw [hB]
      simp [hw.1]
    · rw [if_neg hB]
      have hnej : joinSegs (cleanSegs false (splitSlash P)) ++ '/' :: w ≠ [] := by simp
      simp [hB, hnej]
      omega
  | true =>
    by_cases hB : cleanSegs true (splitSlash P) = []
    · rw [hB]
      simp [hw.1]
      omega
    · rw [if_neg hB]
      have hnej : joinSegs (cleanSegs true (splitSlash P)) ++ '/' :: w ≠ [] := by simp
      simp [hB, hnej]
      omega

theorem cleanBase_seg (P w : List Char) (hP : P ≠ [])
    (hw : w ≠ [] ∧ w ≠ ['.'] ∧ w ≠ ['.', '.']) (hws : '/' ∉ w) :
    cleanBase (P ++ '/' :: w) = cleanBase P + w.length + 1 := by
  unfold cleanBase
  rw [head_append_cons P '/' w hP, splitSlash_append, splitSlash_no_slash w hws,
    cleanSegs_concat _ _ _ hw, joinSegs_concat]
  have hne2 : cleanSegs (P.head? == some '/') (splitSlash P) ++ [w] ≠ [] := by simp
  rw [if_neg hne2]
  by_cases hB : cleanSegs (P.head? == some '/') (splitSlash P) = []
  · rw [hB]
    simp [hw.1]
    omega
  · rw [if_neg hB]
    simp [hB]
    omega

theorem goCleanChars_seg2_len (P w v : List Char) (hP : P ≠ [])
    (hw : w ≠ [] ∧ w ≠ ['.'] ∧ w ≠ ['.', '.']) (hws : '/' ∉ w)
    (hv : v ≠ [] ∧ v ≠ ['.'] ∧ v ≠ ['.', '.']) (hvs : '/' ∉ v) :
    (goCleanChars (P ++ '/' :: (w ++ '/' :: v))).length =
      cleanBase P + w.length + 1 + v.length := by
  have hassoc : P ++ '/' :: (w ++ '/' :: v) = (P ++ '/' :: w) ++ '/' :: v := by simp
  rw [hassoc, goCleanChars_seg_len _ v (by simp) hv hvs, cleanBase_seg P w hP hw hws]

theorem segOK_chars (s : String) (h : segOK s) :
    (s.data ≠ [] ∧ s.data ≠ ['.'] ∧ s.data ≠ ['.', '.']) ∧ '/' ∉ s.data := by
  obtain ⟨h1, h2, h3, h4⟩ := h
  exact ⟨⟨fun hh => h1 (String.ext hh), fun hh => h2 (String.ext hh),
    fun hh => h3 (String.ext hh)⟩, h4⟩

theorem join_paths_distinct (a d m : String) (ha : a ≠ "") (hd : segOK d) (hm : segOK m) :
    goJoin3 a "dists" d ≠ goJoin2 a "dists" ∧
    goJoin3 a "dists" d ≠ goJoin2 a "pool" ∧
    goJoin3 a "pool" m ≠ goJoin2 a "dists" ∧
    goJoin3 a "pool" m ≠ goJoin2 a "pool" := by
  have haD : a.data ≠ [] := fun hh => ha (String.ext hh)
  obtain ⟨hdp, hds⟩ := segOK_chars d hd
  obtain ⟨hmp, hms⟩ := segOK_chars m hm
  have hdlen : 0 < d.data.length := List.length_pos_of_ne_nil hdp.1
  have hmlen : 0 < m.data.length := List.length_pos_of_ne_nil hmp.1
  have hDistsP : ("dists".data ≠ [] ∧ "dists".data ≠ ['.'] ∧ "dists".data ≠ ['.', '.']) := by
    decide
  have hDistsS : '/' ∉ "dists".data := by decide
  have hPoolP : ("pool".data ≠ [] ∧ "pool".data ≠ ['.'] ∧ "pool".data ≠ ['.', '.']) := by
    decide
  have hPoolS : '/' ∉ "pool".data := by decide
  have e3d : (a ++ "/" ++ "dists" ++ "/" ++ d).data =
      a.data ++ '/' :: ("dists".data ++ '/' :: d.data) := by simp
  have e2d : (a ++ "/" ++ "dists").data = a.data ++ '/' :: "dists".data := by simp
  have e3p : (a ++ "/" ++ "pool" ++ "/" ++ m).data =
      a.data ++ '/' :: ("pool".data ++ '/' :: m.data) := by simp
  have e2p : (a ++ "/" ++ "pool").data = a.data ++ '/' :: "pool".data := by simp
  have l3d : (goClean (a ++ "/" ++ "dists" ++ "/" ++ d)).data.length =
      cleanBase a.data + 5 + 1 + d.data.length := by
    show (goCleanChars (a ++ "/" ++ "dists" ++ "/" ++ d).data).length = _
    rw [e3d, goCleanChars_seg2_len a.data _ _ haD hDistsP hDistsS hdp hds]
    rfl
  have l2d : (goClean (a ++ "/" ++ "dists")).data.length = cleanBase a.data + 5 := by
    show (goCleanChars (a ++ "/" ++ "dists").data).length = _
    rw [e2d, goCleanChars_seg_len a.data _ haD hDistsP hDistsS]
    rfl
  have l3p : (goClean (a ++ "/" ++ "pool" ++ "/" ++ m)).data.length =
      cleanBase a.data + 4 + 1 + m.data.length := by
    show (goCleanChars (a ++ "/" ++ "pool" ++ "/" ++ m).data).length = _
    rw [e3p, goCleanChars_seg2_len a.data _ _ haD hPoolP hPoolS hmp hms]
    rfl
  have l2p : (goClean (a ++ "/" ++ "pool")).data.length = cleanBase a.data + 4 := by
    show (goCleanChars (a ++ "/" ++ "pool").data).length = _
    rw [e2p, goCleanChars_seg_len a.data _ haD hPoolP hPoolS]
    rfl
  unfold goJoin3 goJoin2
  simp only [if_pos ha]
  refine ⟨?_, ?_, ?_, ?_⟩ <;>
    intro he <;>
    rw [String.ext_iff] at he <;>
    have hlen := congrArg List.length he
  · rw [l3d, l2d] at hlen
    omega
  · rw [l3d, l2p] at hlen
    omega
  · rw [l3p, l2d] at hlen
    omega
  · rw [l3p, l2p] at hlen
    omega

theorem removeFlagsAux_fst (repo : PublishedRepo) (idx : Nat) (l : List PublishedRepo) :
    ∀ (i : Nat) (rp rpc : Bool),
    ((removeFlagsAux repo idx l i rp rpc).fst = false ↔
      (rp = false ∨ ∃ j, j < l.length ∧ i + j ≠ idx ∧ (l.getD j default).Pfx = repo.Pfx)) := by
  induction l with
  | nil =>
    intro i rp rpc
    simp [removeFlagsAux]
  | cons r rest ih =>
    intro i rp rpc
    by_cases hi : i = idx
    · subst hi
      simp only [removeFlagsAux, if_pos rfl, if_true, reduceIte]
      rw [ih (i + 1) rp rpc]
      constructor
      · rintro (h | ⟨j, hj, hne, hP⟩)
        · exact Or.inl h
        · exact Or.inr ⟨j + 1, by simpa using hj, by omega, by simpa using hP⟩
      · rintro (h | ⟨j, hj, hne, hP⟩)
        · exact Or.inl h
        · cases j with
          | zero => simp at hne
          | succ j2 => exact Or.inr ⟨j2, by simpa using hj, by omega, by simpa using hP⟩
    · by_cases hp : r.Pfx = repo.Pfx
      · simp only [removeFlagsAux, if_neg hi, if_pos hp]
        rw [ih (i + 1) false _]
        constructor
        · intro _
          exact Or.inr ⟨0, by simp, by simpa using hi, by simpa using hp⟩
        · intro _
          exact Or.inl rfl
      · simp only [removeFlagsAux, if_neg hi, if_neg hp]
        rw [ih (i + 1) rp rpc]
        apply or_congr Iff.rfl
        constructor
        · rintro ⟨j, hj, hne, hP⟩
          exact ⟨j + 1, by simpa using hj, by omega, by simpa using hP⟩
        · rintro ⟨j, hj, hne, hP⟩
          cases j with
          | zero => simp at hP; exact absurd hP hp
          | succ j2 => exact ⟨j2, by simpa using hj, by omega, by simpa using hP⟩

theorem removeFlagsAux_snd (repo : PublishedRepo) (idx : Nat) (l : List PublishedRepo) :
    ∀ (i : Nat) (rp rpc : Bool),
    ((removeFlagsAux repo idx l i rp rpc).snd = false ↔
      (rpc = false ∨ ∃ j, j < l.length ∧ i + j ≠ idx ∧ (l.getD j default).Pfx = repo.Pfx ∧
        (l.getD j default).Component = repo.Component)) := by
  induction l with
  | nil =>
    intro i rp rpc
    simp [removeFlagsAux]
  | cons r rest ih =>
    intro i rp rpc
    by_cases hi : i = idx
    · subst hi
      simp only [removeFlagsAux, if_pos rfl, if_true, reduceIte]
      rw [ih (i + 1) rp rpc]
      constructor
      · rintro (h | ⟨j, hj, hne, hP⟩)
        · exact Or.inl h
        · exact Or.inr ⟨j + 1, by simpa using hj, by omega, by simpa using hP⟩
      · rintro (h | ⟨j, hj, hne, hP⟩)
        · exact Or.inl h
        · cases j with
          | zero => simp at hne
          | succ j2 => exact Or.inr ⟨j2, by simpa using hj, by omega, by simpa using hP⟩
    · by_cases hp : r.Pfx = repo.Pfx
      · by_cases hcc : r.Component = repo.Component
        · simp only [removeFlagsAux, if_neg hi, if_pos hp, if_pos hcc]
          rw [ih (i + 1) false false]
          constructor
          · intro _
            exact Or.inr ⟨0, by simp, by simpa using hi, by simpa using hp,
              by simpa using hcc⟩
          · intro _
            exact Or.inl rfl
        · simp only [removeFlagsAux, if_neg hi, if_pos hp, if_neg hcc]
          rw [ih (i + 1) false rpc]
          apply or_congr Iff.rfl
          constructor
          · rintro ⟨j, hj, hne, hP⟩
            exact ⟨j + 1, by simpa using hj, by omega, by simpa using hP⟩
          · rintro ⟨j, hj, hne, hP⟩
            cases j with
            | zero => simp at hP; exact absurd hP.2 hcc
            | succ j2 => exact ⟨j2, by simpa using hj, by omega, by simpa using hP⟩
      · simp only [removeFlagsAux, if_neg hi, if_neg hp]
        rw [ih (i + 1) rp rpc]
        apply or_congr Iff.rfl
        constructor
        · rintro ⟨j, hj, hne, hP⟩
          exact ⟨j + 1, by simpa using hj, by omega, by simpa using hP⟩
        · rintro ⟨j, hj, hne, hP⟩
          cases j with
          | zero => simp at hP; exact absurd hP.1 hp
          | succ j2 => exact ⟨j2, by simpa using hj, by omega, by simpa using hP⟩

theorem runRm_ok (l : List String) : runRm (fun _ => Except.ok ()) l = (none, l) := by
  induction l with
  | nil => rfl
  | cons d rest ih => simp [runRm, ih]

/-- C1: when the registry holds the target `X` at `(pfx, dist)` and
at least one other entry shares `X`'s publishing path, `Remove`
computes `removePrefix = false`, so only `<Prefix>/dists/<Distribution>`
is removed, plus `<Prefix>/pool/<Component>` exactly when no other
entry shares both the path and the component; `<Prefix>/dists` and
`<Prefix>/pool` themselves are never removed in that case. When no
other entry shares the path, both flags stay `true` and
`<Prefix>/dists` then `<Prefix>/pool` are removed. -/
theorem claim_remove_shared_pfx (c : PublishedRepoCollection) (pfx dist : String)
    (idx : Nat) (X : PublishedRepo)
    (hidx : findIdxPD c.list pfx dist = some idx)
    (hX : c.list.getD idx default = X)
    (ha : X.Pfx ≠ "") (hd : segOK X.Distribution) (hm : segOK X.Component) :
    ((removeFlags X c.list idx).fst = false ↔ sharesPfxAt c.list idx X) ∧
    ((removeFlags X c.list idx).snd = false ↔ sharesPfxCompAt c.list idx X) ∧
    (RemoveRepo (fun _ => Except.ok ()) c pfx dist).removed =
      removeFilesList X (removeFlags X c.list idx).fst (removeFlags X c.list idx).snd ∧
    (sharesPfxAt c.list idx X → sharesPfxCompAt c.list idx X →
      (RemoveRepo (fun _ => Except.ok ()) c pfx dist).removed =
        [goJoin3 X.Pfx "dists" X.Distribution]) ∧
    (sharesPfxAt c.list idx X → ¬ sharesPfxCompAt c.list idx X →
      (RemoveRepo (fun _ => Except.ok ()) c pfx dist).removed =
        [goJoin3 X.Pfx "dists" X.Distribution, goJoin3 X.Pfx "pool" X.Component]) ∧
    (sharesPfxAt c.list idx X →
      goJoin2 X.Pfx "dists" ∉ (RemoveRepo (fun _ => Except.ok ()) c pfx dist).removed ∧
      goJoin2 X.Pfx "pool" ∉ (RemoveRepo (fun _ => Except.ok ()) c pfx dist).removed) ∧
    (¬ sharesPfxAt c.list idx X →
      removeFlags X c.list idx = (true, true) ∧
      (RemoveRepo (fun _ => Except.ok ()) c pfx dist).removed =
        [goJoin2 X.Pfx "dists", goJoin2 X.Pfx "pool"]) := by
  have hfst : ((removeFlags X c.list idx).fst = false ↔ sharesPfxAt c.list idx X) := by
    unfold removeFlags sharesPfxAt
    rw [removeFlagsAux_fst]
    simp
  have hsnd : ((removeFlags X c.list idx).snd = false ↔ sharesPfxCompAt c.list idx X) := by
    unfold removeFlags sharesPfxCompAt
    rw [removeFlagsAux_snd]
    simp
  have hrem : (RemoveRepo (fun _ => Except.ok ()) c pfx dist).removed =
      removeFilesList X (removeFlags X c.list idx).fst (removeFlags X c.list idx).snd := by
    unfold RemoveRepo
    rw [hidx]
    show (match runRm (fun _ => Except.ok ()) (removeFilesList (c.list.getD idx default)
        (removeFlags (c.list.getD idx default) c.list idx).fst
        (removeFlags (c.list.getD idx default) c.list idx).snd) with
      | (some e2, done2) => RemoveOutcome.mk (some e2) c done2
      | (none, done2) => RemoveOutcome.mk none
          ⟨dbDelete c.db (repoKey (c.list.getD idx default)), swapRemove c.list idx⟩
          done2).removed = _
    rw [hX, runRm_ok]
  obtain ⟨q1, q2, q3, q4⟩ := join_paths_distinct X.Pfx X.Distribution X.Component ha hd hm
  refine ⟨hfst, hsnd, hrem, ?_, ?_, ?_, ?_⟩
  · intro h1 h2
    rw [hrem, hfst.mpr h1, hsnd.mpr h2]
    rfl
  · intro h1 h2
    have e2 : (removeFlags X c.list idx).snd = true := by
      rcases Bool.eq_false_or_eq_true (removeFlags X c.list idx).snd with hh | hh
      · exact hh
      · exact absurd (hsnd.mp hh) h2
    rw [hrem, hfst.mpr h1, e2]
    rfl
  · intro h1
    rw [hrem, hfst.mpr h1]
    rcases Bool.eq_false_or_eq_true (removeFlags X c.list idx).snd with hh | hh <;> rw [hh]
    · constructor
      · simp only [removeFilesList, if_true, Bool.false_eq_true, if_false, List.mem_cons,
          List.mem_singleton, List.cons_append, List.nil_append, not_or, List.not_mem_nil]
        exact ⟨Ne.symm q1, Ne.symm q3, not_false⟩
      · simp only [removeFilesList, if_true, Bool.false_eq_true, if_false, List.mem_cons,
          List.mem_singleton, List.cons_append, List.nil_append, not_or, List.not_mem_nil]
        exact ⟨Ne.symm q2, Ne.symm q4, not_false⟩
    · constructor
      · simp only [removeFilesList, Bool.false_eq_true, if_false, List.mem_cons,
          List.mem_singleton, List.cons_append, List.nil_append, not_or, List.not_mem_nil]
        exact ⟨Ne.symm q1, not_false⟩
      · simp only [removeFilesList, Bool.false_eq_true, if_false, List.mem_cons,
          List.mem_singleton, List.cons_append, List.nil_append, not_or, List.not_mem_nil]
        exact ⟨Ne.symm q2, not_false⟩
  · intro h1
    have e1 : (removeFlags X c.list idx).fst = true := by
      rcases Bool.eq_false_or_eq_true (removeFlags X c.list idx).fst with hh | hh
      · exact hh
      · exact absurd (hfst.mp hh) h1
    have e2 : (removeFlags X c.list idx).snd = true := by
      rcases Bool.eq_false_or_eq_true (removeFlags X c.list idx).snd with hh | hh
      · exact hh
      · refine absurd ?_ h1
        obtain ⟨j, hj, hne, hP, hC⟩ := hsnd.mp hh
        exact ⟨j, hj, hne, hP⟩
    refine ⟨?_, ?_⟩
    · rw [Prod.ext_iff]
      exact ⟨e1, e2⟩
    · rw [hrem, e1, e2]
      rfl

theorem claim_remove_shared_pfx_witness :
    (RemoveRepo (fun _ => Except.ok ())
        ⟨[], [⟨"u1", "p", "a", "main", [], "snapshot", "s1"⟩,
              ⟨"u2", "p", "b", "main", [], "snapshot", "s2"⟩]⟩ "p" "a").removed =
      [goJoin3 "p" "dists" "a"] ∧
    goJoin2 "p" "dists" ∉ (RemoveRepo (fun _ => Except.ok ())
        ⟨[], [⟨"u1", "p", "a", "main", [], "snapshot", "s1"⟩,
              ⟨"u2", "p", "b", "main", [], "snapshot", "s2"⟩]⟩ "p" "a").removed ∧
    goJoin2 "p" "pool" ∉ (RemoveRepo (fun _ => Except.ok ())
        ⟨[], [⟨"u1", "p", "a", "main", [], "snapshot", "s1"⟩,
              ⟨"u2", "p", "b", "main", [], "snapshot", "s2"⟩]⟩ "p" "a").removed := by
  have hthm := claim_remove_shared_pfx
    ⟨[], [⟨"u1", "p", "a", "main", [], "snapshot", "s1"⟩,
          ⟨"u2", "p", "b", "main", [], "snapshot", "s2"⟩]⟩ "p" "a" 0
    ⟨"u1", "p", "a", "main", [], "snapshot", "s1"⟩ (by decide) rfl (by decide)
    ⟨by decide, by decide, by decide, by decide⟩ ⟨by decide, by decide, by decide, by decide⟩
  have hshare : sharesPfxAt
      [(⟨"u1", "p", "a", "main", [], "snapshot", "s1"⟩ : PublishedRepo),
       ⟨"u2", "p", "b", "main", [], "snapshot", "s2"⟩] 0
      ⟨"u1", "p", "a", "main", [], "snapshot", "s1"⟩ :=
    ⟨1, by decide, by decide, rfl⟩
  have hshareC : sharesPfxCompAt
      [(⟨"u1", "p", "a", "main", [], "snapshot", "s1"⟩ : PublishedRepo),
       ⟨"u2", "p", "b", "main", [], "snapshot", "s2"⟩] 0
      ⟨"u1", "p", "a", "main", [], "snapshot", "s1"⟩ :=
    ⟨1, by decide, by decide, rfl, rfl⟩
  exact ⟨hthm.2.2.2.1 hshare hshareC, (hthm.2.2.2.2.2.1 hshare).1,
    (hthm.2.2.2.2.2.1 hshare).2⟩

end AptlyPublish
